import Mathlib

/-!
Verification of the MindShift retrieval pipeline (document ingestion,
chunking, vector-store bookkeeping, retrieval prompt assembly and the
query boundary) against its natural-language specification.

Text is embedded as `List Char` (Python strings); fallible operations
return `Except`; external collaborators (embedding service, completion
service, document parser) are passed in as explicit results, mirroring
the exception-based control flow of the source.
-/

namespace MindShift

/-- Textual content, the shallow embedding of a Python `str`. -/
abbrev Text := List Char

/-- Whitespace characters removed by Python `str.strip()`. -/
def wsChars : Text := (" \t\n\r\x0b\x0c").toList

/-- Whitespace test used by `str.strip()`. -/
def isWS (c : Char) : Bool := wsChars.contains c

/-- Embedding of Python `str.strip()`: drop whitespace from both ends. -/
def pstrip (t : Text) : Text := (t.dropWhile isWS).rdropWhile isWS

/-- File type recorded in a loaded document's metadata
(`mindshift_rag.py` lines 102 and 128). -/
inductive FileType where
  | txt
  | docx
deriving DecidableEq, Repr

/-- A loaded document: text plus the metadata attached by the loaders. -/
structure Doc where
  text : Text
  filename : String
  fileType : FileType
deriving DecidableEq, Repr

/-- A file found in the documents directory, together with the result of
trying to read (for `.txt`) or parse (for `.docx`) it.  The `Except`
models the exception raised by `open`/`DocxDocument`; the parse result
of a word-processor file is its ordered list of paragraph texts. -/
inductive SrcFile where
  | txt (name : String) (readResult : Except String Text)
  | docx (name : String) (parseResult : Except String (List Text))
  | other (name : String)

/-- Text assembled from a parsed `.docx` file: strip each paragraph, drop
the blank ones, join with a single newline (`mindshift_rag.py` lines
116-123, `som_data_loader.py` lines 123-130). -/
def docxContent (paras : List Text) : Text :=
  List.intercalate [('\n' : Char)] ((paras.map pstrip).filter (fun p => !p.isEmpty))

/-- Document produced from one directory entry by the `.txt` loop of
`MindShiftRAG.load_documents` (lines 94-108): read the file, keep it only
when the content is non-blank; a read failure yields nothing. -/
def txtDoc? (f : SrcFile) : Option Doc :=
  match f with
  | SrcFile.txt name (Except.ok content) =>
      if !(pstrip content).isEmpty then
        some (Doc.mk content name FileType.txt)
      else none
  | _ => none

/-- Document produced from one directory entry by the `.docx` loop of
`MindShiftRAG.load_documents` (lines 110-137): requires the optional
word-processor support (`hasDocx`, the `python-docx` import); a parse
failure yields nothing; blank content is skipped. -/
def docxDoc? (hasDocx : Bool) (f : SrcFile) : Option Doc :=
  match hasDocx, f with
  | true, SrcFile.docx name (Except.ok paras) =>
      let content := docxContent paras
      if !(pstrip content).isEmpty then
        some (Doc.mk content name FileType.docx)
      else none
  | _, _ => none

/-- Error message of the `ValueError` raised when no usable document is
found (`mindshift_rag.py` line 140, `som_data_loader.py` line 144). -/
def noDocsMsg : String := "No valid documents found"

/-- Embedding of `MindShiftRAG.load_documents` (lines 84-147): process
every `.txt` entry, then every `.docx` entry, skipping failures; raise
`ValueError` when the assembled list is empty. -/
def loadDocumentsR (hasDocx : Bool) (dir : List SrcFile) : Except String (List Doc) :=
  let docs := dir.filterMap txtDoc? ++ dir.filterMap (docxDoc? hasDocx)
  if docs.isEmpty then Except.error noDocsMsg else Except.ok docs

/-- Embedding of `SOMDataLoader.load_documents` (lines 104-147): the
LangChain variant loads only `.docx` files, skipping failures; raises
`ValueError` when the assembled list is empty. -/
def somLoadDocuments (dir : List SrcFile) : Except String (List Doc) :=
  let docs := dir.filterMap (docxDoc? true)
  if docs.isEmpty then Except.error noDocsMsg else Except.ok docs

/-- A directory entry whose read (`.txt`) or parse (`.docx`) raised. -/
def isReadFailure (f : SrcFile) : Bool :=
  match f with
  | SrcFile.txt _ (Except.error _) => true
  | SrcFile.docx _ (Except.error _) => true
  | _ => false

/-- A directory entry that contributes a document to the RAG loader. -/
def usableFile (hasDocx : Bool) (f : SrcFile) : Bool :=
  (txtDoc? f).isSome || (docxDoc? hasDocx f).isSome

/-- Concrete directory with no usable document: an unreadable text file,
a word-processor file whose only paragraph is blank, an unsupported file. -/
def dirNoUsable : List SrcFile :=
  [SrcFile.txt ("a.txt") (Except.error ("disk error")),
   SrcFile.docx ("b.docx") (Except.ok [[' ']]),
   SrcFile.other ("c.pdf")]

/-- Concrete unreadable text file. -/
def failingTxt : SrcFile := SrcFile.txt ("bad.txt") (Except.error ("boom"))

/-- Concrete readable, non-blank text file. -/
def goodTxt : SrcFile := SrcFile.txt ("good.txt") (Except.ok ("hello".toList))

/-- Concrete parseable, non-blank word-processor file. -/
def goodDocx : SrcFile := SrcFile.docx ("good.docx") (Except.ok [("alpha".toList), ("beta".toList)])

/-- Documents loaded from the concrete directory `[goodDocx, goodTxt]`. -/
def twoDocs : List Doc :=
  [Doc.mk ("hello".toList) ("good.txt") FileType.txt,
   Doc.mk ("alpha\nbeta".toList) ("good.docx") FileType.docx]

/-- Double newline, the separator placed between retrieved chunk texts
(`mindshift_rag.py` line 228). -/
def nl2 : Text := ('\n' :: '\n' :: [])

/-- A double-quote character, written around the user's belief in the
prompt template. -/
def dquote : Text := [('"' : Char)]

/-- Coaching-prompt template text before the quoted user belief
(`mindshift_rag.py` lines 234-236). -/
def promptPre : Text :=
  ("\n            You are MindShift, an expert NLP coach specializing in Sleight of Mouth (SOM) patterns. \n            The user has shared a limiting belief: ").toList

/-- Coaching-prompt template text between the quoted belief and the
retrieved context block (`mindshift_rag.py` lines 236-240). -/
def promptMid : Text :=
  ("\n            \n            Here are the relevant SOM patterns and conversation examples from the knowledge base:\n            \n            ").toList

/-- Coaching-prompt template text after the context block: the numbered
instructions (`mindshift_rag.py` lines 240-251). -/
def promptSuf : Text :=
  ("\n            \n            Based on this retrieved information, please:\n            \n            1. Identify 2-3 relevant SOM patterns from the knowledge base that could challenge this belief\n            2. Formulate 2-3 powerful questions using these specific patterns\n            3. Maintain a supportive, conversational tone like in the examples\n            4. Reference specific patterns by name when appropriate\n            5. Use the conversation style and approach shown in the examples\n            \n            Focus on helping the user reframe their limiting belief into a more empowering perspective using the exact patterns and techniques from the knowledge base.\n            ").toList

/-- The context block: retrieved chunk texts joined in retrieval order by
one double newline (`mindshift_rag.py` line 228). -/
def retrievedContent (nodes : List Text) : Text := List.intercalate nl2 nodes

/-- The composed coaching prompt (`mindshift_rag.py` lines 234-251): the
fixed template with the user's belief quoted and the context embedded. -/
def coachingPrompt (userInput ctx : Text) : Text :=
  promptPre ++ dquote ++ userInput ++ dquote ++ promptMid ++ ctx ++ promptSuf

/-- Fixed text preceding the error detail in the apology returned by the
`except` clause of `query` (`mindshift_rag.py` line 259). -/
def apologyPre : Text :=
  ("I apologize, but I encountered an error while processing your request: ").toList

/-- The user-facing apology string produced by the `except` clause of
`query`, embedding the text of the underlying error. -/
def apologyMsg (e : Text) : Text := apologyPre ++ e

/-- Embedding of `MindShiftRAG.query` (lines 215-259).  The two external
steps are explicit: `retrieve` is the combined result of the query
embedding plus store retrieval (a list of node texts, or the raised
error), and `complete` maps the composed prompt to the completion-call
result.  Any failure is converted into the apology string. -/
def ragQuery (retrieve : Except Text (List Text)) (complete : Text → Except Text Text)
    (userInput : Text) : Text :=
  match retrieve with
  | Except.error e => apologyMsg e
  | Except.ok nodes =>
      match complete (coachingPrompt userInput (retrievedContent nodes)) with
      | Except.error e => apologyMsg e
      | Except.ok response => response

/-- Modelled from the spec: the separator priority list of the text
splitter configured in `SOMDataLoader.setup_text_splitter` (the splitter
implementation itself is library code, absent from the repository
sources).  Highest priority: the paragraph break. -/
def paraSep : Text := ('\n' :: '\n' :: [])

/-- Second separator priority: the line break. -/
def lineSep : Text := ('\n' :: [])

/-- Third separator priority: the space; the final fallback is the raw
character boundary. -/
def spaceSep : Text := (' ' :: [])

/-- Modelled from the spec: a position `q` is an admissible break of the
remaining text `t` after a given separator when the prefix of length `q`
ends with that separator and the break leaves the chunk longer than the
configured overlap `O` (so the next chunk strictly advances). -/
def isBreak (sep : Text) (O : Nat) (t : Text) (q : Nat) : Bool :=
  decide (O < q) && sep.isSuffixOf (t.take q)

/-- Largest admissible break position at most `n` for one separator,
`none` when the separator yields no admissible break in the window. -/
def lastBreak (sep : Text) (O : Nat) (t : Text) : Nat → Option Nat
  | 0 => none
  | q + 1 => if isBreak sep O t (q + 1) then some (q + 1) else lastBreak sep O t q

/-- The splitting window: at most `chunk_size` characters, at most the
whole remaining text. -/
def chunkWindow (S : Nat) (t : Text) : Nat := min S t.length

/-- Modelled from the spec: the end position of the next chunk.  Try the
coarsest separator first (paragraph break, then line break, then space)
and break at the latest admissible occurrence inside the window; when no
separator applies, fall back to the raw character boundary at the full
window. -/
def chunkEnd (S O : Nat) (t : Text) : Nat :=
  match lastBreak paraSep O t (chunkWindow S t) with
  | some q => q
  | none =>
      match lastBreak lineSep O t (chunkWindow S t) with
      | some q => q
      | none =>
          match lastBreak spaceSep O t (chunkWindow S t) with
          | some q => q
          | none => chunkWindow S t

/-- Fuel-indexed splitting loop: emit the chunk up to `chunkEnd`, restart
`chunk_overlap` characters before its end, stop when the remaining text
fits in one chunk. -/
def splitTextGo (S O : Nat) : Nat → Text → List Text
  | 0, t => [t]
  | fuel + 1, t =>
      if t.length ≤ S then [t]
      else
        (t.take (chunkEnd S O t)) ::
          splitTextGo S O fuel (t.drop (max 1 (chunkEnd S O t - O)))

/-- Modelled from the spec: the recursive character text splitter invoked
by `SOMDataLoader.split_documents` and `split_documents` in
`som_pipeline_demo.py` (its implementation is library code, absent from
the repository sources), modelled from spec section 4.2: chunks of at
most `chunk_size` characters, consecutive chunks overlapping by
`chunk_overlap` characters, breaks preferring the coarsest separator. -/
def splitText (S O : Nat) (t : Text) : List Text :=
  splitTextGo S O t.length t

/-- Modelled from the spec: `SOMDataLoader.split_documents` (lines
149-180) maps the text splitter over every document, each chunk
inheriting its parent document's metadata, order preserved. -/
def splitDocuments (S O : Nat) (docs : List Doc) : List Doc :=
  docs.flatMap (fun d => (splitText S O d.text).map (fun c => Doc.mk c d.filename d.fileType))

/-- Reassembly of a chunk sequence: each chunk except the last contributes
everything before its trailing overlap; equality with the source text
expresses that the chunks cover the document in order. -/
def joinOverlap (O : Nat) : List Text → Text
  | [] => []
  | [c] => c
  | c :: c' :: rest => c.take (c.length - O) ++ joinOverlap O (c' :: rest)

/-- Two consecutive chunks share a boundary overlap of exactly `O`
characters: the first `O` characters of the second chunk are the last
`O` characters of the first. -/
def overlapRel (O : Nat) (a b : Text) : Prop :=
  b.take O = a.drop (a.length - O)

/-- Some admissible break for this separator exists in the window. -/
def hasBreak (sep : Text) (S O : Nat) (t : Text) : Prop :=
  ∃ q, q ≤ chunkWindow S t ∧ isBreak sep O t q = true

/-- Position `e` is the latest admissible break for this separator. -/
def maxBreakFor (sep : Text) (S O : Nat) (t : Text) (e : Nat) : Prop :=
  e ≤ chunkWindow S t ∧ isBreak sep O t e = true
    ∧ ∀ q, q ≤ chunkWindow S t → isBreak sep O t q = true → q ≤ e

/-- The chosen break position prefers the coarsest separator: it is the
latest admissible paragraph break when one exists, otherwise the latest
admissible line break, otherwise the latest admissible space, otherwise
the raw character boundary at the full window. -/
def sepPrefAt (S O : Nat) (t : Text) (e : Nat) : Prop :=
  (hasBreak paraSep S O t → maxBreakFor paraSep S O t e)
  ∧ (¬ hasBreak paraSep S O t → hasBreak lineSep S O t → maxBreakFor lineSep S O t e)
  ∧ (¬ hasBreak paraSep S O t → ¬ hasBreak lineSep S O t → hasBreak spaceSep S O t →
      maxBreakFor spaceSep S O t e)
  ∧ (¬ hasBreak paraSep S O t → ¬ hasBreak lineSep S O t → ¬ hasBreak spaceSep S O t →
      e = chunkWindow S t)

/-- The separator-free scenario text of spec section 8. -/
def scenarioText : Text := ("abcdefghijklmno").toList

/-- Modelled from the spec: the vector store's record bookkeeping (spec
section 4.4; the store implementation is external library code, absent
from the repository sources): a collection holds the stored chunk
records, upsert appends records, count returns how many are stored. -/
structure VStore where
  records : List Doc
deriving DecidableEq

/-- Number of records stored in the collection (spec section 4.4
`count`; surfaced by `get_collection_stats` in both drivers). -/
def VStore.count (s : VStore) : Nat := s.records.length

/-- Store a batch of chunk records in the collection (spec section 4.4
`upsert`; the bulk add performed by `Chroma.from_documents` /
`VectorStoreIndex.from_documents`). -/
def VStore.add (s : VStore) (chunks : List Doc) : VStore := VStore.mk (s.records ++ chunks)

/-- Embedding of the `get_or_create_collection` call of
`MindShiftRAG.setup_chromadb` (line 69): reuse the collection already
present at the persist location when there is one, otherwise start an
empty one; nothing is ever cleared. -/
def getOrCreateCollection (existing : Option VStore) : VStore :=
  match existing with
  | some s => s
  | none => VStore.mk []

/-- One ingestion run (`SOMDataLoader.run_pipeline` steps 2-4,
`create_vectorstore` lines 182-214): chunk the loaded documents and
store every chunk in the collection at the persist location. -/
def ingestRun (existing : Option VStore) (S O : Nat) (docs : List Doc) : VStore :=
  (getOrCreateCollection existing).add (splitDocuments S O docs)

/-- A record already present in the collection before an ingestion run. -/
def oldRecord : Doc := Doc.mk ("old".toList) ("old.docx") FileType.docx

/-- A tiny document whose chunking yields exactly one chunk. -/
def tinyDoc : Doc := Doc.mk ("hi".toList) ("tiny.docx") FileType.docx

/-- Caller-facing configuration of `SOMDataLoader.__init__` (lines
41-61): the directory, collection name, persist directory, chunk size
and chunk overlap are all constructor arguments. -/
structure SOMConfig where
  docsDirectory : String
  collectionName : String
  persistDirectory : String
  chunkSize : Nat
  chunkOverlap : Nat
deriving DecidableEq

/-- Default argument values of `SOMDataLoader.__init__` (lines 41-46). -/
def somConfigDefault : SOMConfig :=
  SOMConfig.mk ("./som_documents") ("som_mindshift") ("./chroma_db") 1000 200

/-- Caller-settable state of `MindShiftRAG.__init__` (line 38): the
persist directory is its only constructor parameter. -/
structure RAGInit where
  persistDir : String
deriving DecidableEq

/-- Splitter configuration hard-coded inside `MindShiftRAG.create_index`
(lines 161-166): `SentenceSplitter(chunk_size=512, chunk_overlap=50)`,
for every construction of the driver. -/
def createIndexSplitter (_r : RAGInit) : Nat × Nat := (512, 50)

/-- Retrieval depth hard-coded inside `MindShiftRAG.setup_query_engine`
(line 181) and `MindShiftRAG.query` (line 221): `similarity_top_k=5`,
for every construction of the driver. -/
def queryEngineTopK (_r : RAGInit) : Nat := 5

/-- Adjacent characters are never both newlines: the relation whose
chain-freedom over a text states that the text has no double newline. -/
def noNlPair (a b : Char) : Prop := a ≠ '
' ∨ b ≠ '
'

/-- Paragraph list whose single paragraph carries an interior double
newline (a word-processor paragraph may contain manual line breaks). -/
def badParas : List Text := [('a' :: '
' :: '
' :: 'b' :: [])]

/-- Paragraph list whose single paragraph carries an interior line break
followed by a space. -/
def badParas2 : List Text := [('a' :: '
' :: ' ' :: 'b' :: [])]

end MindShift


namespace MindShift

theorem txtDoc?_type {f : SrcFile} {d : Doc} (h : txtDoc? f = some d) :
    d.fileType = FileType.txt := by
  cases f with
  | txt name r =>
      cases r with
      | ok c =>
          simp only [txtDoc?] at h
          split at h
          · cases h; rfl
          · cases h
      | error e => cases h
  | docx name r => cases h
  | other name => cases h

theorem docxDoc?_type {b : Bool} {f : SrcFile} {d : Doc} (h : docxDoc? b f = some d) :
    d.fileType = FileType.docx := by
  cases b with
  | false => cases h
  | true =>
      cases f with
      | txt name r => cases h
      | docx name r =>
          cases r with
          | ok paras =>
              simp only [docxDoc?] at h
              split at h
              · cases h; rfl
              · cases h
          | error e => cases h
      | other name => cases h

theorem readFailure_txtDoc {f : SrcFile} (h : isReadFailure f = true) :
    txtDoc? f = none := by
  cases f with
  | txt name r => cases r with
      | ok c => simp [isReadFailure] at h
      | error e => rfl
  | docx name r => rfl
  | other name => rfl

theorem readFailure_docxDoc {f : SrcFile} (b : Bool) (h : isReadFailure f = true) :
    docxDoc? b f = none := by
  cases b with
  | false => rfl
  | true =>
      cases f with
      | txt name r => rfl
      | docx name r => cases r with
          | ok paras => simp [isReadFailure] at h
          | error e => rfl
      | other name => rfl

/-- C4: for every directory in which scanning yields zero usable documents
(no supported file with non-blank extractable text), document loading
raises the fatal `ValueError` and ingestion aborts; it never proceeds
with a silently empty collection.  Stated for both loader variants. -/
theorem loading_aborts_on_zero_usable_documents :
    (∀ (hasDocx : Bool) (dir : List SrcFile),
      (∀ f ∈ dir, usableFile hasDocx f = false) →
      loadDocumentsR hasDocx dir = Except.error noDocsMsg)
    ∧ (∀ dir : List SrcFile,
      (∀ f ∈ dir, docxDoc? true f = none) →
      somLoadDocuments dir = Except.error noDocsMsg) := by
  constructor
  · intro hasDocx dir hnone
    have htxt : dir.filterMap txtDoc? = [] := by
      rw [List.filterMap_eq_nil_iff]
      intro f hf
      have := hnone f hf
      simp only [usableFile, Bool.or_eq_false_iff] at this
      exact Option.not_isSome_iff_eq_none.mp (by simp [this.1])
    have hdocx : dir.filterMap (docxDoc? hasDocx) = [] := by
      rw [List.filterMap_eq_nil_iff]
      intro f hf
      have := hnone f hf
      simp only [usableFile, Bool.or_eq_false_iff] at this
      exact Option.not_isSome_iff_eq_none.mp (by simp [this.2])
    simp [loadDocumentsR, htxt, hdocx]
  · intro dir hnone
    have hdocx : dir.filterMap (docxDoc? true) = [] := by
      rw [List.filterMap_eq_nil_iff]
      intro f hf
      exact hnone f hf
    simp [somLoadDocuments, hdocx]

theorem loading_aborts_witness :
    (∀ f ∈ dirNoUsable, usableFile true f = false)
    ∧ loadDocumentsR true dirNoUsable = Except.error noDocsMsg
    ∧ somLoadDocuments dirNoUsable = Except.error noDocsMsg :=
  ⟨by decide,
   loading_aborts_on_zero_usable_documents.1 true dirNoUsable (by decide),
   loading_aborts_on_zero_usable_documents.2 dirNoUsable (by decide)⟩

/-- C5: a read or parse failure of one individual file is caught and that
file skipped: loading a directory with the failing file produces exactly
the result of loading the directory without it, and when at least one
usable file remains the run completes with a non-empty document list. -/
theorem loading_skips_failing_file (hasDocx : Bool) (pre post : List SrcFile)
    (f : SrcFile) (hfail : isReadFailure f = true) :
    loadDocumentsR hasDocx (pre ++ f :: post) = loadDocumentsR hasDocx (pre ++ post)
    ∧ somLoadDocuments (pre ++ f :: post) = somLoadDocuments (pre ++ post)
    ∧ ((pre ++ post).any (usableFile hasDocx) = true →
        ∃ ds, loadDocumentsR hasDocx (pre ++ f :: post) = Except.ok ds ∧ ds ≠ []) := by
  have htxt : txtDoc? f = none := readFailure_txtDoc hfail
  have hdoc : ∀ b, docxDoc? b f = none := fun b => readFailure_docxDoc b hfail
  have hskip : loadDocumentsR hasDocx (pre ++ f :: post) = loadDocumentsR hasDocx (pre ++ post) := by
    simp [loadDocumentsR, List.filterMap_append, List.filterMap_cons, htxt, hdoc]
  refine ⟨hskip, ?_, ?_⟩
  · simp [somLoadDocuments, List.filterMap_append, List.filterMap_cons, hdoc]
  · intro hany
    rw [hskip]
    obtain ⟨g, hg, hgu⟩ := List.any_eq_true.mp hany
    have hne : (pre ++ post).filterMap txtDoc? ++ (pre ++ post).filterMap (docxDoc? hasDocx) ≠ [] := by
      simp only [usableFile, Bool.or_eq_true] at hgu
      rcases hgu with h1 | h1
      · obtain ⟨d, hd⟩ := Option.isSome_iff_exists.mp h1
        have : d ∈ (pre ++ post).filterMap txtDoc? :=
          List.mem_filterMap.mpr ⟨g, hg, hd⟩
        intro hc
        rw [List.append_eq_nil] at hc
        rw [hc.1] at this
        cases this
      · obtain ⟨d, hd⟩ := Option.isSome_iff_exists.mp h1
        have : d ∈ (pre ++ post).filterMap (docxDoc? hasDocx) :=
          List.mem_filterMap.mpr ⟨g, hg, hd⟩
        intro hc
        rw [List.append_eq_nil] at hc
        rw [hc.2] at this
        cases this
    refine ⟨(pre ++ post).filterMap txtDoc? ++ (pre ++ post).filterMap (docxDoc? hasDocx), ?_, hne⟩
    simp only [loadDocumentsR]
    rw [if_neg]
    simp only [List.isEmpty_iff]
    exact hne

theorem loading_skips_witness :
    isReadFailure failingTxt = true
    ∧ loadDocumentsR true [failingTxt, goodTxt] = loadDocumentsR true [goodTxt]
    ∧ (∃ ds, loadDocumentsR true [failingTxt, goodTxt] = Except.ok ds ∧ ds ≠ []) :=
  ⟨by decide,
   (loading_skips_failing_file true [] [goodTxt] failingTxt (by decide)).1,
   (loading_skips_failing_file true [] [goodTxt] failingTxt (by decide)).2.2 (by decide)⟩

/-- C9: in the document list returned by the RAG loader, every document
produced from a `.txt` file precedes every document produced from a
`.docx` file, for every directory listing order. -/
theorem txt_docs_precede_docx_docs (hasDocx : Bool) (dir : List SrcFile)
    (ds : List Doc) (h : loadDocumentsR hasDocx dir = Except.ok ds)
    (i j : Nat) (hi : i < ds.length) (hj : j < ds.length)
    (htxt : (ds.get ⟨i, hi⟩).fileType = FileType.txt)
    (hdocx : (ds.get ⟨j, hj⟩).fileType = FileType.docx) :
    i < j := by
  have hds : ds = dir.filterMap txtDoc? ++ dir.filterMap (docxDoc? hasDocx) := by
    simp only [loadDocumentsR] at h
    split at h
    · cases h
    · cases h; rfl
  have hAtype : ∀ d ∈ dir.filterMap txtDoc?, d.fileType = FileType.txt := by
    intro d hd
    obtain ⟨a, _, ha⟩ := List.mem_filterMap.mp hd
    exact txtDoc?_type ha
  have hBtype : ∀ d ∈ dir.filterMap (docxDoc? hasDocx), d.fileType = FileType.docx := by
    intro d hd
    obtain ⟨a, _, ha⟩ := List.mem_filterMap.mp hd
    exact docxDoc?_type ha
  subst hds
  by_contra hc
  push_neg at hc
  -- j ≤ i; derive a contradiction from the block structure of the list
  have hiA : i < (dir.filterMap txtDoc?).length := by
    by_contra hge
    push_neg at hge
    have := @List.getElem_append_right _ (dir.filterMap txtDoc?)
      (dir.filterMap (docxDoc? hasDocx)) i hge hi
    have hmem : (dir.filterMap txtDoc? ++ dir.filterMap (docxDoc? hasDocx))[i] ∈
        dir.filterMap (docxDoc? hasDocx) := by
      rw [this]
      exact List.getElem_mem _
    have : FileType.txt = FileType.docx := by
      rw [← htxt]
      simp only [List.get_eq_getElem]
      exact hBtype _ hmem
    cases this
  have hjA : (dir.filterMap txtDoc?).length ≤ j := by
    by_contra hlt
    push_neg at hlt
    have := @List.getElem_append_left _ j (dir.filterMap txtDoc?)
      (dir.filterMap (docxDoc? hasDocx)) hlt hj
    have hmem : (dir.filterMap txtDoc? ++ dir.filterMap (docxDoc? hasDocx))[j] ∈
        dir.filterMap txtDoc? := by
      rw [this]
      exact List.getElem_mem _
    have : FileType.docx = FileType.txt := by
      rw [← hdocx]
      simp only [List.get_eq_getElem]
      exact hAtype _ hmem
    cases this
  omega

theorem txt_precede_witness :
    loadDocumentsR true [goodDocx, goodTxt] = Except.ok twoDocs ∧ (0 : Nat) < 1 :=
  ⟨by rfl,
   txt_docs_precede_docx_docs true [goodDocx, goodTxt] twoDocs (by rfl) 0 1
     (by decide) (by decide) (by decide) (by decide)⟩

end MindShift

namespace MindShift

/-- C1: for every user input, the query operation never raises past its
boundary: whichever step fails (retrieval or completion), `query` returns
the apology string that starts with an apology phrase and embeds the text
of the underlying error, and on success it returns the generated text. -/
theorem query_never_throws (retrieve : Except Text (List Text))
    (complete : Text → Except Text Text) (userInput : Text) :
    (∃ e, (retrieve = Except.error e
        ∨ ∃ nodes, retrieve = Except.ok nodes
            ∧ complete (coachingPrompt userInput (retrievedContent nodes)) = Except.error e)
      ∧ ragQuery retrieve complete userInput = apologyMsg e
      ∧ apologyMsg e = apologyPre ++ e
      ∧ ("I apologize").toList <+: ragQuery retrieve complete userInput)
    ∨ (∃ nodes response, retrieve = Except.ok nodes
        ∧ complete (coachingPrompt userInput (retrievedContent nodes)) = Except.ok response
        ∧ ragQuery retrieve complete userInput = response) := by
  have hpre : ∀ e : Text, ("I apologize").toList <+: apologyMsg e := by
    intro e
    exact List.IsPrefix.trans (by decide) (List.prefix_append apologyPre e)
  cases retrieve with
  | error e =>
      exact Or.inl ⟨e, Or.inl rfl, rfl, rfl, hpre e⟩
  | ok nodes =>
      cases hc : complete (coachingPrompt userInput (retrievedContent nodes)) with
      | error e =>
          refine Or.inl ⟨e, Or.inr ⟨nodes, rfl, hc⟩, ?_, rfl, ?_⟩
          · simp [ragQuery, hc]
          · simp only [ragQuery, hc]
            exact hpre e
      | ok response =>
          refine Or.inr ⟨nodes, response, rfl, hc, ?_⟩
          simp [ragQuery, hc]

/-- C6: the composed prompt contains the retrieved chunk texts joined in
retrieval order by exactly one double newline as the context block, and
contains the user's stated belief verbatim, quoted, inside the fixed
instruction template. -/
theorem prompt_embeds_context_and_quoted_belief (userInput : Text) (nodes : List Text) :
    coachingPrompt userInput (retrievedContent nodes)
      = promptPre ++ dquote ++ userInput ++ dquote ++ promptMid
          ++ retrievedContent nodes ++ promptSuf
    ∧ retrievedContent nodes = List.intercalate nl2 nodes
    ∧ (∃ p s, coachingPrompt userInput (retrievedContent nodes)
        = p ++ List.intercalate nl2 nodes ++ s)
    ∧ (∃ p s, coachingPrompt userInput (retrievedContent nodes)
        = p ++ (dquote ++ userInput ++ dquote) ++ s) := by
  refine ⟨rfl, rfl,
    ⟨promptPre ++ dquote ++ userInput ++ dquote ++ promptMid, promptSuf, ?_⟩,
    ⟨promptPre, promptMid ++ retrievedContent nodes ++ promptSuf, ?_⟩⟩
  · simp [coachingPrompt, retrievedContent, List.append_assoc]
  · simp [coachingPrompt, List.append_assoc]

end MindShift

namespace MindShift

theorem isBreak_zero (sep : Text) (O : Nat) (t : Text) : isBreak sep O t 0 = false := by
  simp [isBreak]

theorem isBreak_lt {sep : Text} {O : Nat} {t : Text} {q : Nat}
    (h : isBreak sep O t q = true) : O < q := by
  simp only [isBreak, Bool.and_eq_true, decide_eq_true_eq] at h
  exact h.1

theorem lastBreak_some {sep : Text} {O : Nat} {t : Text} :
    ∀ {n q : Nat}, lastBreak sep O t n = some q →
      q ≤ n ∧ isBreak sep O t q = true ∧
        ∀ r, r ≤ n → isBreak sep O t r = true → r ≤ q := by
  intro n
  induction n with
  | zero => intro q h; simp [lastBreak] at h
  | succ m ih =>
      intro q h
      simp only [lastBreak] at h
      by_cases hb : isBreak sep O t (m + 1) = true
      · rw [if_pos hb] at h
        injection h with h
        subst h
        exact ⟨Nat.le_refl _, hb, fun r hr _ => hr⟩
      · rw [if_neg hb] at h
        obtain ⟨hq, hbq, hmax⟩ := ih h
        refine ⟨Nat.le_succ_of_le hq, hbq, ?_⟩
        intro r hr hbr
        rcases Nat.lt_or_ge r (m + 1) with h1 | h1
        · exact hmax r (Nat.lt_succ_iff.mp h1) hbr
        · have : r = m + 1 := Nat.le_antisymm hr h1
          subst this
          exact absurd hbr hb

theorem lastBreak_none {sep : Text} {O : Nat} {t : Text} :
    ∀ {n : Nat}, lastBreak sep O t n = none →
      ∀ r, r ≤ n → isBreak sep O t r = false := by
  intro n
  induction n with
  | zero =>
      intro _ r hr
      have : r = 0 := Nat.le_zero.mp hr
      subst this
      exact isBreak_zero sep O t
  | succ m ih =>
      intro h r hr
      simp only [lastBreak] at h
      by_cases hb : isBreak sep O t (m + 1) = true
      · rw [if_pos hb] at h; cases h
      · rw [if_neg hb] at h
        rcases Nat.lt_or_ge r (m + 1) with h1 | h1
        · exact ih h r (Nat.lt_succ_iff.mp h1)
        · have : r = m + 1 := Nat.le_antisymm hr h1
          subst this
          cases hbv : isBreak sep O t (m + 1) with
          | false => rfl
          | true => exact absurd hbv hb

theorem chunkEnd_le (S O : Nat) (t : Text) : chunkEnd S O t ≤ chunkWindow S t := by
  unfold chunkEnd
  split
  · rename_i q h; exact (lastBreak_some h).1
  · split
    · rename_i q h; exact (lastBreak_some h).1
    · split
      · rename_i q h; exact (lastBreak_some h).1
      · exact Nat.le_refl _

theorem chunkEnd_gt {S O : Nat} {t : Text} (hOS : O < S) (hlen : S < t.length) :
    O < chunkEnd S O t := by
  have hW : chunkWindow S t = S := Nat.min_eq_left (Nat.le_of_lt hlen)
  unfold chunkEnd
  split
  · rename_i q h; exact isBreak_lt (lastBreak_some h).2.1
  · split
    · rename_i q h; exact isBreak_lt (lastBreak_some h).2.1
    · split
      · rename_i q h; exact isBreak_lt (lastBreak_some h).2.1
      · rw [hW]; exact hOS

theorem splitTextGo_congr (S O : Nat) :
    ∀ (n : Nat) (t : Text) (m : Nat), t.length ≤ n → t.length ≤ m →
      splitTextGo S O n t = splitTextGo S O m t := by
  intro n
  induction n with
  | zero =>
      intro t m hn _
      have ht : t = [] := List.length_eq_zero.mp (Nat.le_zero.mp hn)
      subst ht
      cases m with
      | zero => rfl
      | succ k => simp [splitTextGo]
  | succ k ih =>
      intro t m hn hm
      cases m with
      | zero =>
          have ht : t = [] := List.length_eq_zero.mp (Nat.le_zero.mp hm)
          subst ht
          simp [splitTextGo]
      | succ j =>
          simp only [splitTextGo]
          by_cases hle : t.length ≤ S
          · rw [if_pos hle, if_pos hle]
          · rw [if_neg hle, if_neg hle]
            congr 1
            have h1 : 1 ≤ max 1 (chunkEnd S O t - O) := Nat.le_max_left _ _
            apply ih
            · simp only [List.length_drop]; omega
            · simp only [List.length_drop]; omega

theorem splitText_of_le {S O : Nat} {t : Text} (h : t.length ≤ S) :
    splitText S O t = [t] := by
  unfold splitText
  cases hl : t.length with
  | zero => rfl
  | succ k =>
      simp only [splitTextGo]
      rw [if_pos h]

theorem splitText_of_gt {S O : Nat} {t : Text} (h : S < t.length) :
    splitText S O t =
      (t.take (chunkEnd S O t)) ::
        splitText S O (t.drop (max 1 (chunkEnd S O t - O))) := by
  unfold splitText
  cases hl : t.length with
  | zero => rw [hl] at h; cases h
  | succ k =>
      simp only [splitTextGo]
      rw [if_neg (Nat.not_le.mpr h)]
      congr 1
      have h1 : 1 ≤ max 1 (chunkEnd S O t - O) := Nat.le_max_left _ _
      apply splitTextGo_congr
      · simp only [List.length_drop]; omega
      · exact Nat.le_refl _

theorem splitText_ne_nil (S O : Nat) (t : Text) : splitText S O t ≠ [] := by
  rcases le_or_lt t.length S with h | h
  · rw [splitText_of_le h]; simp
  · rw [splitText_of_gt h]; simp

theorem splitText_length_le (S O : Nat) :
    ∀ (n : Nat) (t : Text), t.length ≤ n → ∀ c ∈ splitText S O t, c.length ≤ S := by
  intro n
  induction n with
  | zero =>
      intro t hn c hc
      have ht : t = [] := List.length_eq_zero.mp (Nat.le_zero.mp hn)
      subst ht
      rw [splitText_of_le (by simp)] at hc
      simp only [List.mem_singleton] at hc
      subst hc
      simp
  | succ k ih =>
      intro t hn c hc
      rcases le_or_lt t.length S with h | h
      · rw [splitText_of_le h] at hc
        simp only [List.mem_singleton] at hc
        subst hc
        exact h
      · rw [splitText_of_gt h] at hc
        rcases List.mem_cons.mp hc with h1 | h1
        · subst h1
          simp only [List.length_take]
          have hle := chunkEnd_le S O t
          unfold chunkWindow at hle
          omega
        · have h1m : 1 ≤ max 1 (chunkEnd S O t - O) := Nat.le_max_left _ _
          apply ih (t.drop (max 1 (chunkEnd S O t - O))) _ c h1
          simp only [List.length_drop]; omega

theorem take_drop_overlap (t : Text) (e O : Nat) (he : e ≤ t.length) (hOe : O ≤ e) :
    (t.take e).drop ((t.take e).length - O) = (t.drop (e - O)).take O := by
  have hlen : (t.take e).length = e := by
    rw [List.length_take]; omega
  rw [hlen]
  have h2 : e - O + O = e := by omega
  rw [List.take_drop, h2]

theorem splitText_chain (S O : Nat) (hOS : O < S) :
    ∀ (n : Nat) (t : Text), t.length ≤ n →
      List.Chain' (overlapRel O) (splitText S O t) := by
  intro n
  induction n with
  | zero =>
      intro t hn
      have ht : t = [] := List.length_eq_zero.mp (Nat.le_zero.mp hn)
      subst ht
      rw [splitText_of_le (by simp)]
      exact List.chain'_singleton _
  | succ k ih =>
      intro t hn
      rcases le_or_lt t.length S with h | h
      · rw [splitText_of_le h]
        exact List.chain'_singleton _
      · rw [splitText_of_gt h]
        have hOe : O < chunkEnd S O t := chunkEnd_gt hOS h
        have he : chunkEnd S O t ≤ t.length := by
          have := chunkEnd_le S O t
          unfold chunkWindow at this
          omega
        have hstep : max 1 (chunkEnd S O t - O) = chunkEnd S O t - O := by omega
        rw [hstep]
        apply List.chain'_cons'.mpr
        constructor
        · intro y hy
          show y.take O = (t.take (chunkEnd S O t)).drop ((t.take (chunkEnd S O t)).length - O)
          rw [take_drop_overlap t (chunkEnd S O t) O he (Nat.le_of_lt hOe)]
          rcases le_or_lt (t.drop (chunkEnd S O t - O)).length S with h2 | h2
          · rw [splitText_of_le h2] at hy
            simp only [List.head?_cons, Option.mem_def, Option.some.injEq] at hy
            subst hy
            rfl
          · rw [splitText_of_gt h2] at hy
            simp only [List.head?_cons, Option.mem_def, Option.some.injEq] at hy
            subst hy
            rw [List.take_take]
            have hOe2 : O < chunkEnd S O (t.drop (chunkEnd S O t - O)) := chunkEnd_gt hOS h2
            have hmin : min O (chunkEnd S O (t.drop (chunkEnd S O t - O))) = O := by omega
            rw [hmin]
        · apply ih
          simp only [List.length_drop]; omega

theorem splitText_join (S O : Nat) (hOS : O < S) :
    ∀ (n : Nat) (t : Text), t.length ≤ n →
      joinOverlap O (splitText S O t) = t := by
  intro n
  induction n with
  | zero =>
      intro t hn
      have ht : t = [] := List.length_eq_zero.mp (Nat.le_zero.mp hn)
      subst ht
      rw [splitText_of_le (by simp)]
      rfl
  | succ k ih =>
      intro t hn
      rcases le_or_lt t.length S with h | h
      · rw [splitText_of_le h]
        rfl
      · rw [splitText_of_gt h]
        have hOe : O < chunkEnd S O t := chunkEnd_gt hOS h
        have he : chunkEnd S O t ≤ t.length := by
          have := chunkEnd_le S O t
          unfold chunkWindow at this
          omega
        have hstep : max 1 (chunkEnd S O t - O) = chunkEnd S O t - O := by omega
        rw [hstep]
        obtain ⟨r, l, hrl⟩ :=
          List.exists_cons_of_ne_nil (splitText_ne_nil S O (t.drop (chunkEnd S O t - O)))
        rw [hrl]
        simp only [joinOverlap]
        rw [← hrl]
        rw [ih _ (by simp only [List.length_drop]; omega)]
        have hlen : (t.take (chunkEnd S O t)).length = chunkEnd S O t := by
          rw [List.length_take]; omega
        rw [hlen, List.take_take]
        have hmin : min (chunkEnd S O t - O) (chunkEnd S O t) = chunkEnd S O t - O := by omega
        rw [hmin]
        exact List.take_append_drop _ t

theorem chunkEnd_sepPref (S O : Nat) (t : Text) : sepPrefAt S O t (chunkEnd S O t) := by
  have hnone : ∀ sep, lastBreak sep O t (chunkWindow S t) = none → ¬ hasBreak sep S O t := by
    intro sep h hb
    obtain ⟨q, hq, hbq⟩ := hb
    have := lastBreak_none h q hq
    rw [this] at hbq
    cases hbq
  have hsome : ∀ sep q, lastBreak sep O t (chunkWindow S t) = some q →
      maxBreakFor sep S O t q := by
    intro sep q h
    obtain ⟨h1, h2, h3⟩ := lastBreak_some h
    exact ⟨h1, h2, h3⟩
  unfold sepPrefAt
  unfold chunkEnd
  split
  · rename_i q h1
    have hpara : hasBreak paraSep S O t :=
      ⟨q, (lastBreak_some h1).1, (lastBreak_some h1).2.1⟩
    exact ⟨fun _ => hsome _ _ h1,
           fun hn => (hn hpara).elim,
           fun hn => (hn hpara).elim,
           fun hn => (hn hpara).elim⟩
  · rename_i h1
    split
    · rename_i q h2
      have hline : hasBreak lineSep S O t :=
        ⟨q, (lastBreak_some h2).1, (lastBreak_some h2).2.1⟩
      exact ⟨fun hp => ((hnone _ h1) hp).elim,
             fun _ _ => hsome _ _ h2,
             fun _ hnl => (hnl hline).elim,
             fun _ hnl => (hnl hline).elim⟩
    · rename_i h2
      split
      · rename_i q h3
        have hspace : hasBreak spaceSep S O t :=
          ⟨q, (lastBreak_some h3).1, (lastBreak_some h3).2.1⟩
        exact ⟨fun hp => ((hnone _ h1) hp).elim,
               fun _ hl => ((hnone _ h2) hl).elim,
               fun _ _ _ => hsome _ _ h3,
               fun _ _ hns => (hns hspace).elim⟩
      · rename_i h3
        exact ⟨fun hp => ((hnone _ h1) hp).elim,
               fun _ hl => ((hnone _ h2) hl).elim,
               fun _ _ hs => ((hnone _ h3) hs).elim,
               fun _ _ _ => rfl⟩

/-- C2: for every document text and configuration with overlap below the
chunk size, the spec-modelled chunker produces an ordered chunk sequence
in which every chunk has length at most the chunk size, consecutive
chunks overlap by exactly the configured overlap, the chunks reassemble
the document in order, and each break prefers the coarsest separator
(paragraph break, line break, space, raw character). -/
theorem chunker_contract (S O : Nat) (t : Text) (hOS : O < S) :
    (∀ c ∈ splitText S O t, c.length ≤ S)
    ∧ List.Chain' (overlapRel O) (splitText S O t)
    ∧ joinOverlap O (splitText S O t) = t
    ∧ sepPrefAt S O t (chunkEnd S O t) :=
  ⟨splitText_length_le S O t.length t (Nat.le_refl _),
   splitText_chain S O hOS t.length t (Nat.le_refl _),
   splitText_join S O hOS t.length t (Nat.le_refl _),
   chunkEnd_sepPref S O t⟩

theorem chunker_contract_witness :
    (3 : Nat) < 10
    ∧ splitText 10 3 scenarioText = [("abcdefghij").toList, ("hijklmno").toList]
    ∧ joinOverlap 3 (splitText 10 3 scenarioText) = scenarioText :=
  ⟨by decide, by decide, (chunker_contract 10 3 scenarioText (by decide)).2.2.1⟩

/-- C3: splitting is deterministic: any two runs of the splitting
operation on identical document lists and identical configuration produce
identical chunk sequences, with the same texts, order and count. -/
theorem splitting_deterministic (S O : Nat) (docs docs' : List Doc) (h : docs = docs') :
    splitDocuments S O docs = splitDocuments S O docs'
    ∧ (splitDocuments S O docs).map Doc.text = (splitDocuments S O docs').map Doc.text
    ∧ (splitDocuments S O docs).length = (splitDocuments S O docs').length := by
  subst h
  exact ⟨rfl, rfl, rfl⟩

theorem splitting_deterministic_witness :
    splitDocuments 1000 200 twoDocs = splitDocuments 1000 200 twoDocs
    ∧ (splitDocuments 1000 200 twoDocs).map Doc.text
        = (splitDocuments 1000 200 twoDocs).map Doc.text
    ∧ (splitDocuments 1000 200 twoDocs).length
        = (splitDocuments 1000 200 twoDocs).length :=
  splitting_deterministic 1000 200 twoDocs twoDocs (by rfl)

end MindShift

namespace MindShift

/-- C7 counterexample: an ingestion run over one document producing one
chunk into a collection that already holds one record leaves a count of
2, not 1 — the claim fails whenever the collection is not fresh, because
`get_or_create_collection` reuses the existing collection and the run
only appends. -/
theorem count_after_ingest_counterexample :
    (splitDocuments 1000 200 [tinyDoc]).length = 1
    ∧ (ingestRun (some (VStore.mk [oldRecord])) 1000 200 [tinyDoc]).count = 2
    ∧ (2 : Nat) ≠ 1 := by
  refine ⟨by decide, by decide, by decide⟩

/-- C7 (amended): an ingestion run whose chunking produces C chunks adds
exactly C records: the collection count after the run equals the prior
record count plus C, and equals C exactly when the run starts with a
fresh (absent or empty) collection. -/
theorem count_after_ingest (existing : Option VStore) (S O : Nat) (docs : List Doc) :
    (ingestRun existing S O docs).count
      = (getOrCreateCollection existing).count + (splitDocuments S O docs).length
    ∧ (ingestRun none S O docs).count = (splitDocuments S O docs).length := by
  constructor
  · simp [ingestRun, VStore.add, VStore.count]
  · simp [ingestRun, VStore.add, VStore.count, getOrCreateCollection]

/-- C8 counterexample: the RAG driver's index build hard-codes a splitter
with chunk_size 512 and chunk_overlap 50 — not the claimed defaults 1000
and 200 — and the query path's top-k is the constant 5 for every
construction of the driver, so none of them is caller-overridable
through the driver's only parameter. -/
theorem config_defaults_counterexample :
    (createIndexSplitter (RAGInit.mk ("./chroma_db"))).1 = 512
    ∧ (createIndexSplitter (RAGInit.mk ("./chroma_db"))).1 ≠ 1000
    ∧ (createIndexSplitter (RAGInit.mk ("./chroma_db"))).2 = 50
    ∧ (createIndexSplitter (RAGInit.mk ("./chroma_db"))).2 ≠ 200
    ∧ queryEngineTopK (RAGInit.mk ("./a")) = 5
    ∧ queryEngineTopK (RAGInit.mk ("./b")) = 5 := by
  refine ⟨rfl, by decide, rfl, by decide, rfl, rfl⟩

/-- C8 (amended): the data-loader pipeline's configuration defaults are
chunk_size 1000 and chunk_overlap 200, and chunk size, chunk overlap,
collection name and persist directory are all caller-overridable through
the loader constructor; the RAG driver instead hard-codes chunk_size 512
and chunk_overlap 50 in its index build and top_k 5 in its query path,
identical for every construction of the driver. -/
theorem config_surface (d c p : String) (s o : Nat) (r r' : RAGInit) :
    somConfigDefault.chunkSize = 1000
    ∧ somConfigDefault.chunkOverlap = 200
    ∧ (SOMConfig.mk d c p s o).chunkSize = s
    ∧ (SOMConfig.mk d c p s o).chunkOverlap = o
    ∧ (SOMConfig.mk d c p s o).collectionName = c
    ∧ (SOMConfig.mk d c p s o).persistDirectory = p
    ∧ createIndexSplitter r = (512, 50)
    ∧ queryEngineTopK r = 5
    ∧ queryEngineTopK r = queryEngineTopK r' :=
  ⟨rfl, rfl, rfl, rfl, rfl, rfl, rfl, rfl, rfl⟩

end MindShift

namespace MindShift

theorem dropWhile_rdropWhile_dropWhile (p : Char → Bool) (l : Text) :
    ((l.dropWhile p).rdropWhile p).dropWhile p = (l.dropWhile p).rdropWhile p := by
  rw [List.dropWhile_eq_self_iff]
  intro hl
  have hpre := List.rdropWhile_prefix p (l.dropWhile p)
  have hplen : 0 < (l.dropWhile p).length := Nat.lt_of_lt_of_le hl hpre.length_le
  have hget : ((l.dropWhile p).rdropWhile p).get ⟨0, hl⟩ = (l.dropWhile p).get ⟨0, hplen⟩ := by
    simp only [List.get_eq_getElem]
    exact hpre.getElem hl
  rw [hget]
  exact List.dropWhile_get_zero_not p l hplen

theorem pstrip_idem (l : Text) : pstrip (pstrip l) = pstrip l := by
  show ((pstrip l).dropWhile isWS).rdropWhile isWS = pstrip l
  have h1 : (pstrip l).dropWhile isWS = pstrip l := dropWhile_rdropWhile_dropWhile isWS l
  rw [h1]
  show ((l.dropWhile isWS).rdropWhile isWS).rdropWhile isWS = pstrip l
  rw [List.rdropWhile_idempotent]
  rfl

theorem pstrip_infix_self (l : Text) : pstrip l <:+: l := by
  show (l.dropWhile isWS).rdropWhile isWS <:+: l
  obtain ⟨tl, htl⟩ := List.rdropWhile_prefix isWS (l.dropWhile isWS)
  obtain ⟨hd, hhd⟩ := (List.dropWhile_suffix isWS : l.dropWhile isWS <:+ l)
  refine ⟨hd, tl, ?_⟩
  rw [List.append_assoc, htl, hhd]

theorem parts_spec (paras : List Text) (hnl : ∀ p ∈ paras, ('\n' : Char) ∉ p) :
    ∀ p ∈ (paras.map pstrip).filter (fun p => !p.isEmpty),
      p ≠ [] ∧ ('\n' : Char) ∉ p ∧ pstrip p = p := by
  intro p hp
  rw [List.mem_filter] at hp
  obtain ⟨hmem, hne⟩ := hp
  obtain ⟨q, hq, hpq⟩ := List.mem_map.mp hmem
  subst hpq
  refine ⟨?_, ?_, pstrip_idem q⟩
  · intro he
    rw [he] at hne
    simp at hne
  · intro hm
    exact hnl q hq (List.IsInfix.subset (pstrip_infix_self q) hm)

theorem chain'_noNl {l : Text} (h : ('\n' : Char) ∉ l) : List.Chain' noNlPair l := by
  induction l with
  | nil => exact List.chain'_nil
  | cons a tl ih =>
      apply List.chain'_cons'.mpr
      refine ⟨fun y _ => Or.inl ?_, ih fun hm => h (List.mem_cons_of_mem _ hm)⟩
      intro he
      exact h (he ▸ List.mem_cons_self a tl)

theorem intercalate_nil (s : Text) : List.intercalate s ([] : List Text) = [] := by
  simp [List.intercalate]

theorem intercalate_single (s p : Text) : List.intercalate s [p] = p := by
  simp [List.intercalate]

theorem intercalate_cons2 (s p q : Text) (rest : List Text) :
    List.intercalate s (p :: q :: rest) = p ++ (s ++ List.intercalate s (q :: rest)) := by
  simp [List.intercalate, List.intersperse]

theorem head?_intercalate_cons (s q : Text) (rest : List Text) (hq : q ≠ []) :
    (List.intercalate s (q :: rest)).head? = q.head? := by
  cases rest with
  | nil => rw [intercalate_single]
  | cons r rest' =>
      rw [intercalate_cons2]
      exact List.head?_append_of_ne_nil q hq

theorem chain'_intercalate :
    ∀ (parts : List Text), (∀ p ∈ parts, p ≠ [] ∧ ('\n' : Char) ∉ p) →
      List.Chain' noNlPair (List.intercalate [('\n' : Char)] parts) := by
  intro parts
  induction parts with
  | nil =>
      intro _
      rw [intercalate_nil]
      exact List.chain'_nil
  | cons p rest ih =>
      intro h
      cases rest with
      | nil =>
          rw [intercalate_single]
          exact chain'_noNl (h p (List.mem_cons_self p [])).2
      | cons q rest' =>
          rw [intercalate_cons2]
          apply List.chain'_append.mpr
          refine ⟨chain'_noNl (h p (List.mem_cons_self _ _)).2, ?_, ?_⟩
          · rw [List.singleton_append]
            apply List.chain'_cons'.mpr
            constructor
            · intro y hy
              rw [head?_intercalate_cons _ _ _ (h q (List.mem_cons_of_mem _ (List.mem_cons_self _ _))).1] at hy
              have hyq : y ∈ q := List.mem_of_mem_head? hy
              exact Or.inr fun he =>
                (h q (List.mem_cons_of_mem _ (List.mem_cons_self _ _))).2 (he ▸ hyq)
            · exact ih fun r hr => h r (List.mem_cons_of_mem _ hr)
          · intro x hx y hy
            rw [List.singleton_append, List.head?_cons] at hy
            have hxp : x ∈ p := List.mem_of_mem_getLast? hx
            exact Or.inl fun he => (h p (List.mem_cons_self _ _)).2 (he ▸ hxp)

theorem not_infix_of_chain {l : Text} (h : List.Chain' noNlPair l) : ¬ (paraSep <:+: l) := by
  intro hinf
  have h2 : List.Chain' noNlPair ('\n' :: '\n' :: []) := h.infix hinf
  rcases (List.chain'_cons.mp h2).1 with hne | hne
  · exact hne rfl
  · exact hne rfl

theorem docxDoc?_text {b : Bool} {name : String} {paras : List Text} {d : Doc}
    (h : docxDoc? b (SrcFile.docx name (Except.ok paras)) = some d) :
    d.text = docxContent paras := by
  cases b with
  | false => cases h
  | true =>
      simp only [docxDoc?] at h
      split at h
      · cases h
        rfl
      · cases h

/-- C10 (amended): a loaded word-processor document's text is built by
stripping each paragraph, dropping blank paragraphs, and joining with a
single newline; consequently, provided no paragraph text itself contains
a newline character, the document text never contains a double newline —
so the chunker's highest-priority paragraph separator never applies to
it — and no line of the text has leading or trailing whitespace. -/
theorem docx_text_newline_invariant (b : Bool) (name : String) (paras : List Text) (d : Doc)
    (hnl : ∀ p ∈ paras, ('\n' : Char) ∉ p)
    (hload : docxDoc? b (SrcFile.docx name (Except.ok paras)) = some d) :
    d.text = docxContent paras
    ∧ docxContent paras
        = List.intercalate [('\n' : Char)] ((paras.map pstrip).filter (fun p => !p.isEmpty))
    ∧ ¬ (paraSep <:+: d.text)
    ∧ ∀ line ∈ d.text.splitOn '\n', pstrip line = line := by
  have htext := docxDoc?_text hload
  have hparts := parts_spec paras hnl
  refine ⟨htext, rfl, ?_, ?_⟩
  · rw [htext]
    apply not_infix_of_chain
    exact chain'_intercalate _ fun p hp => ⟨(hparts p hp).1, (hparts p hp).2.1⟩
  · rw [htext]
    intro line hline
    by_cases hp : (paras.map pstrip).filter (fun p => !p.isEmpty) = []
    · have hcontent : docxContent paras = [] := by
        unfold docxContent
        rw [hp, intercalate_nil]
      rw [hcontent, List.splitOn_nil] at hline
      simp only [List.mem_singleton] at hline
      subst hline
      rfl
    · have hsplit : (docxContent paras).splitOn '\n'
          = (paras.map pstrip).filter (fun p => !p.isEmpty) := by
        unfold docxContent
        exact List.splitOn_intercalate _ '\n' (fun l hl => (hparts l hl).2.1) hp
      rw [hsplit] at hline
      exact (hparts line hline).2.2

theorem docx_invariant_witness :
    (∀ p ∈ [("alpha".toList), ("beta".toList)], ('\n' : Char) ∉ p)
    ∧ (Doc.mk ("alpha\nbeta".toList) ("good.docx") FileType.docx).text
        = docxContent [("alpha".toList), ("beta".toList)]
    ∧ ¬ (paraSep <:+: (Doc.mk ("alpha\nbeta".toList) ("good.docx") FileType.docx).text)
    ∧ ∀ line ∈ (Doc.mk ("alpha\nbeta".toList) ("good.docx") FileType.docx).text.splitOn '\n',
        pstrip line = line := by
  have h := docx_text_newline_invariant true ("good.docx") [("alpha".toList), ("beta".toList)]
    (Doc.mk ("alpha\nbeta".toList) ("good.docx") FileType.docx) (by decide) (by rfl)
  exact ⟨by decide, h.1, h.2.2.1, h.2.2.2⟩

/-- C10 counterexample: a paragraph text may itself contain newline
characters (word-processor line breaks inside one paragraph); then the
joined document text does contain a double newline, and a line of the
text can carry leading whitespace, so the claimed consequences fail as
stated. -/
theorem docx_invariant_counterexample :
    docxContent badParas = ('a' :: '\n' :: '\n' :: 'b' :: [])
    ∧ paraSep <:+: docxContent badParas
    ∧ (' ' :: 'b' :: []) ∈ (docxContent badParas2).splitOn '\n'
    ∧ pstrip (' ' :: 'b' :: []) ≠ (' ' :: 'b' :: []) := by
  refine ⟨by decide, by decide, by decide, by decide⟩

end MindShift
